import Mathlib

/-!
Verification of the gmail-multi-mcp server core against its specification.

The TypeScript source is shallowly embedded: pure computations become Lean
functions, the stateful account registry becomes explicit state passing, and
fallible code returns Except.  Remote mailbox calls (Gmail API) are modelled
by outcome oracles: a per-item operation is a function from the target id to
Except String Unit, where Except.error carries the human-readable message of
the rejected promise.
-/

namespace GmailMcp

/-! ## Batch executor (src/gmail-client.ts, batchModifyEmails / batchDeleteEmails)

Both methods share the same chunked loop shape: for i in steps of batchSize,
slice the next chunk, run Promise.allSettled over the per-item Gmail calls,
then tally fulfilled results into successCount and rejected ones into the
failures array.  The per-item remote call is modelled by an oracle
op : String -> Except String Unit.
-/

/-- Failure record pushed by the batch loops: the target message id together
with the human-readable error message (gmail-client.ts lines 211-216, 248-253). -/
structure BatchFailure where
  id : String
  error : String
deriving DecidableEq, Repr

/-- Result shape of both batch operations (types.ts BatchOperationResult). -/
structure BatchOperationResult where
  successCount : Nat
  failureCount : Nat
  failures : List BatchFailure
deriving DecidableEq, Repr

/-- Tally of one chunk of settled results: the inner for-loop over
Promise.allSettled results (gmail-client.ts lines 206-218 / 243-255).
Fulfilled results bump the success count, rejected results append a
BatchFailure, in chunk order. -/
def processChunk (op : String → Except String Unit) (batch : List String)
    (acc : Nat × List BatchFailure) : Nat × List BatchFailure :=
  batch.foldl
    (fun a id =>
      match op id with
      | Except.ok _ => (a.1 + 1, a.2)
      | Except.error e => (a.1, a.2 ++ [⟨id, e⟩]))
    acc

/-- Fuel-indexed chunk splitter: messageIds.slice(i, i + batchSize) taken
repeatedly.  The fuel argument makes the function total; chunks instantiates
it with enough fuel for any chunk size of at least 1. -/
def chunksGo (c : Nat) : Nat → List String → List (List String)
  | 0, _ => []
  | _, [] => []
  | Nat.succ fuel, l => l.take c :: chunksGo c fuel (l.drop c)

/-- Consecutive chunks of size at most c, in input order: the sequence of
slices messageIds.slice(i, i + batchSize) produced by the outer loops of
batchModifyEmails and batchDeleteEmails. -/
def chunks (c : Nat) (l : List String) : List (List String) :=
  chunksGo c l.length l

/-- Shared chunked-batch body of batchModifyEmails and batchDeleteEmails
(gmail-client.ts lines 191-225 and 232-262): process each chunk in order,
threading the running success count and failure list, then package the
BatchOperationResult. -/
def batchRun (op : String → Except String Unit) (messageIds : List String)
    (batchSize : Nat) : BatchOperationResult :=
  let acc := (chunks batchSize messageIds).foldl (fun a b => processChunk op b a) (0, [])
  ⟨acc.1, acc.2.length, acc.2⟩

/-- GmailClient.batchModifyEmails (gmail-client.ts lines 185-226); modifyOp
models the per-id gmail.users.messages.modify call with the fixed
addLabelIds/removeLabelIds request body. -/
def batchModifyEmails (modifyOp : String → Except String Unit)
    (messageIds : List String) (batchSize : Nat) : BatchOperationResult :=
  batchRun modifyOp messageIds batchSize

/-- GmailClient.batchDeleteEmails (gmail-client.ts lines 228-263); deleteOp
models the per-id gmail.users.messages.delete call. -/
def batchDeleteEmails (deleteOp : String → Except String Unit)
    (messageIds : List String) (batchSize : Nat) : BatchOperationResult :=
  batchRun deleteOp messageIds batchSize

/-- JavaScript Array.prototype.slice(i, j) for the index ranges used by the
batch loops (0 <= i <= j). -/
def jsSlice (l : List String) (i j : Nat) : List String :=
  (l.drop i).take (j - i)

/-- Faithful index-stepping embedding of the outer batch loop
`for (let i = 0; i < messageIds.length; i += batchSize)`, with explicit fuel:
none is returned exactly when the loop does not finish within fuel
iterations.  The JS loop itself has no termination guard. -/
def batchLoop (op : String → Except String Unit) (ids : List String) (bs : Nat) :
    Nat → Nat → Nat × List BatchFailure → Option (Nat × List BatchFailure)
  | 0, i, acc => if i < ids.length then none else some acc
  | Nat.succ fuel, i, acc =>
    if i < ids.length then
      batchLoop op ids bs fuel (i + bs) (processChunk op (jsSlice ids i (i + bs)) acc)
    else some acc

/-- Ceiling division, the iteration count of the batch loop for positive
chunk sizes. -/
def ceilDiv (n c : Nat) : Nat := (n + c - 1) / c

/-- True exactly when the modelled remote call for this id fulfills. -/
def opOk (op : String → Except String Unit) (id : String) : Bool :=
  match op id with
  | Except.ok _ => true
  | Except.error _ => false

/-- The failure records a batch over ids must report: one entry per id whose
operation rejects, in input order, carrying that rejection's message. -/
def opFailures (op : String → Except String Unit) (ids : List String) : List BatchFailure :=
  ids.filterMap (fun id =>
    match op id with
    | Except.ok _ => none
    | Except.error e => some ⟨id, e⟩)

/-! ### Batch executor lemmas -/

theorem processChunk_append (op : String → Except String Unit) (b1 b2 : List String)
    (acc : Nat × List BatchFailure) :
    processChunk op (b1 ++ b2) acc = processChunk op b2 (processChunk op b1 acc) := by
  simp [processChunk, List.foldl_append]

theorem processChunk_spec (op : String → Except String Unit) (batch : List String) :
    ∀ acc : Nat × List BatchFailure,
      processChunk op batch acc =
        (acc.1 + (batch.filter (opOk op)).length, acc.2 ++ opFailures op batch) := by
  induction batch with
  | nil => intro acc; simp [processChunk, opFailures]
  | cons id rest ih =>
    intro acc
    have step : processChunk op (id :: rest) acc =
        processChunk op rest
          (match op id with
           | Except.ok _ => (acc.1 + 1, acc.2)
           | Except.error e => (acc.1, acc.2 ++ [⟨id, e⟩])) := by
      simp [processChunk]
    rw [step]
    cases h : op id with
    | ok u =>
      rw [ih]
      simp [opFailures, List.filter, opOk, h, Nat.add_comm, Nat.add_assoc, Nat.add_left_comm]
    | error e =>
      rw [ih]
      simp [opFailures, List.filter, opOk, h, List.append_assoc]

theorem chunksGo_congr (c : Nat) (hc : 1 ≤ c) :
    ∀ f1 f2 l, List.length l ≤ f1 → List.length l ≤ f2 →
      chunksGo c f1 l = chunksGo c f2 l := by
  intro f1
  induction f1 with
  | zero =>
    intro f2 l hl _
    have : l = [] := List.eq_nil_of_length_eq_zero (Nat.le_zero.mp hl)
    subst this
    cases f2 <;> simp [chunksGo]
  | succ f ih =>
    intro f2 l h1 h2
    cases l with
    | nil => cases f2 <;> simp [chunksGo]
    | cons x xs =>
      cases f2 with
      | zero => simp at h2
      | succ f2m =>
        show List.take c (x :: xs) :: chunksGo c f (List.drop c (x :: xs)) =
          List.take c (x :: xs) :: chunksGo c f2m (List.drop c (x :: xs))
        have hd1 : (List.drop c (x :: xs)).length ≤ f := by
          simp only [List.length_drop, List.length_cons]
          simp only [List.length_cons] at h1
          omega
        have hd2 : (List.drop c (x :: xs)).length ≤ f2m := by
          simp only [List.length_drop, List.length_cons]
          simp only [List.length_cons] at h2
          omega
        rw [ih _ _ hd1 hd2]

theorem chunksGo_fuel (c : Nat) (hc : 1 ≤ c) (fuel : Nat) (l : List String)
    (hl : List.length l ≤ fuel) : chunksGo c fuel l = chunks c l :=
  chunksGo_congr c hc fuel l.length l hl (Nat.le_refl _)

theorem chunks_nil (c : Nat) : chunks c [] = [] := by
  simp [chunks, chunksGo]

theorem chunks_cons (c : Nat) (hc : 1 ≤ c) (l : List String) (hl : l ≠ []) :
    chunks c l = l.take c :: chunks c (l.drop c) := by
  cases l with
  | nil => exact absurd rfl hl
  | cons x xs =>
    show chunksGo c (xs.length + 1) (x :: xs) = _
    have step : chunksGo c (xs.length + 1) (x :: xs) =
        List.take c (x :: xs) :: chunksGo c xs.length (List.drop c (x :: xs)) := rfl
    rw [step, chunksGo_fuel c hc xs.length _ (by simp only [List.length_drop, List.length_cons]; omega)]

theorem chunks_flatten (c : Nat) (hc : 1 ≤ c) :
    ∀ n l, List.length l ≤ n → (chunks c l).flatten = l := by
  intro n
  induction n with
  | zero =>
    intro l hl
    have : l = [] := List.eq_nil_of_length_eq_zero (Nat.le_zero.mp hl)
    subst this
    simp [chunks_nil]
  | succ m ih =>
    intro l hl
    cases l with
    | nil => simp [chunks_nil]
    | cons x xs =>
      rw [chunks_cons c hc _ (by simp)]
      have hdrop : (List.drop c (x :: xs)).length ≤ m := by
        simp only [List.length_drop, List.length_cons]
        simp only [List.length_cons] at hl
        omega
      rw [List.flatten_cons, ih _ hdrop]
      exact List.take_append_drop c (x :: xs)

theorem foldl_processChunk_flatten (op : String → Except String Unit) :
    ∀ (chs : List (List String)) (acc : Nat × List BatchFailure),
      chs.foldl (fun a b => processChunk op b a) acc = processChunk op chs.flatten acc := by
  intro chs
  induction chs with
  | nil => intro acc; simp [processChunk]
  | cons b rest ih =>
    intro acc
    simp only [List.foldl_cons, List.flatten_cons]
    rw [ih, processChunk_append]

theorem opFailures_length (op : String → Except String Unit) (ids : List String) :
    (opFailures op ids).length = (ids.filter (fun id => ! opOk op id)).length := by
  induction ids with
  | nil => simp [opFailures]
  | cons id rest ih =>
    cases h : op id with
    | ok u => simpa [opFailures, List.filter, opOk, h] using ih
    | error e => simpa [opFailures, List.filter, opOk, h] using ih

theorem length_filter_partition (p : String → Bool) (l : List String) :
    (l.filter p).length + (l.filter (fun x => ! p x)).length = l.length := by
  induction l with
  | nil => simp
  | cons x xs ih =>
    cases h : p x <;> simp [List.filter, h, ← ih] <;> omega

/-- Full characterization of the shared batch body for positive chunk size:
success count is the number of fulfilling ids, and failures are exactly the
rejecting ids in input order with their messages. -/
theorem batchRun_spec (op : String → Except String Unit) (ids : List String)
    (bs : Nat) (hbs : 1 ≤ bs) :
    batchRun op ids bs =
      ⟨(ids.filter (opOk op)).length, (opFailures op ids).length, opFailures op ids⟩ := by
  unfold batchRun
  rw [foldl_processChunk_flatten, chunks_flatten bs hbs ids.length ids (Nat.le_refl _),
    processChunk_spec]
  simp

theorem ceilDiv_zero_left (c : Nat) (hc : 1 ≤ c) : ceilDiv 0 c = 0 := by
  unfold ceilDiv
  have : 0 + c - 1 < c := by omega
  exact Nat.div_eq_of_lt this

theorem ceilDiv_sub (c : Nat) (hc : 1 ≤ c) (m : Nat) (hm : 1 ≤ m) :
    ceilDiv m c = ceilDiv (m - c) c + 1 := by
  unfold ceilDiv
  have hpos : 0 < c := by omega
  by_cases h : m ≤ c
  · have h0 : m - c = 0 := by omega
    rw [h0]
    have e1 : m + c - 1 = (m - 1) + c := by omega
    rw [e1, Nat.add_div_right (m - 1) hpos, Nat.div_eq_of_lt (by omega : m - 1 < c),
      Nat.div_eq_of_lt (by omega : 0 + c - 1 < c)]
  · have e2 : m + c - 1 = ((m - c) + c - 1) + c := by omega
    rw [e2, Nat.add_div_right ((m - c) + c - 1) hpos]

theorem ceilDiv_eq_zero (c : Nat) (hc : 1 ≤ c) (m : Nat) (h : ceilDiv m c = 0) : m = 0 := by
  unfold ceilDiv at h
  have := (Nat.div_eq_zero_iff (by omega : 0 < c)).mp h
  omega

theorem chunks_length (c : Nat) (hc : 1 ≤ c) :
    ∀ n l, List.length l ≤ n → (chunks c l).length = ceilDiv (List.length l) c := by
  intro n
  induction n with
  | zero =>
    intro l hl
    have : l = [] := List.eq_nil_of_length_eq_zero (Nat.le_zero.mp hl)
    subst this
    simp [chunks_nil, ceilDiv_zero_left c hc]
  | succ m ih =>
    intro l hl
    cases l with
    | nil => simp [chunks_nil, ceilDiv_zero_left c hc]
    | cons x xs =>
      rw [chunks_cons c hc _ (by simp)]
      have hdrop : (List.drop c (x :: xs)).length ≤ m := by
        simp only [List.length_drop, List.length_cons]
        simp only [List.length_cons] at hl
        omega
      simp only [List.length_cons]
      rw [ih _ hdrop]
      simp only [List.length_drop, List.length_cons]
      rw [ceilDiv_sub c hc (xs.length + 1) (by omega)]

theorem chunks_getD (c : Nat) (hc : 1 ≤ c) :
    ∀ n l, List.length l ≤ n → ∀ k, k < (chunks c l).length →
      (chunks c l).getD k [] = (l.drop (k * c)).take c := by
  intro n
  induction n with
  | zero =>
    intro l hl k hk
    have : l = [] := List.eq_nil_of_length_eq_zero (Nat.le_zero.mp hl)
    subst this
    rw [chunks_nil] at hk
    exact absurd hk (by simp)
  | succ m ih =>
    intro l hl k hk
    cases l with
    | nil =>
      rw [chunks_nil] at hk
      exact absurd hk (by simp)
    | cons x xs =>
      have hc' := chunks_cons c hc (x :: xs) (by simp)
      cases k with
      | zero =>
        rw [hc']
        simp
      | succ j =>
        have hdrop : (List.drop c (x :: xs)).length ≤ m := by
          simp only [List.length_drop, List.length_cons]
          simp only [List.length_cons] at hl
          omega
        have hk2 : j < (chunks c (List.drop c (x :: xs))).length := by
          rw [hc', List.length_cons] at hk
          omega
        rw [hc', List.getD_cons_succ, ih _ hdrop j hk2, List.drop_drop]
        have heq : c + j * c = (j + 1) * c := by ring
        rw [heq]

/-- C3: for every chunk size c >= 1 the batch executor partitions the targets
into ceil(n/c) consecutive chunks, chunk k holding exactly the targets at
input positions [k*c, min((k+1)*c, n)) in order; an empty target list yields
the zero BatchOperationResult, and c larger than the (nonempty) target count
yields a single chunk. -/
theorem C3_chunk_partition (c : Nat) (hc : 1 ≤ c) (l : List String) :
    (chunks c l).length = ceilDiv (List.length l) c ∧
    (∀ k, k < (chunks c l).length →
      (chunks c l).getD k [] = (l.drop (k * c)).take c) ∧
    (∀ op, batchRun op [] c = ⟨0, 0, []⟩) ∧
    (l ≠ [] → List.length l < c → chunks c l = [l]) := by
  refine ⟨chunks_length c hc l.length l (Nat.le_refl _),
    chunks_getD c hc l.length l (Nat.le_refl _), ?_, ?_⟩
  · intro op
    rfl
  · intro hne hlt
    rw [chunks_cons c hc l hne]
    rw [List.take_of_length_le (by omega), List.drop_eq_nil_of_le (by omega), chunks_nil]

theorem C3_chunk_partition_witness :
    (chunks 2 ["m1", "m2", "m3"]).length = ceilDiv 3 2 ∧ chunks 5 ["a"] = [["a"]] :=
  ⟨(C3_chunk_partition 2 (by decide) ["m1", "m2", "m3"]).1,
   (C3_chunk_partition 5 (by decide) ["a"]).2.2.2 (by decide) (by decide)⟩

/-- C1: for every target list, every pair of per-item oracles and every chunk
size >= 1, both batch operations report successCount + failureCount equal to
the number of targets, each target contributing exactly one outcome: its
success is tallied exactly when its operation fulfills, otherwise it appears
exactly once in the failure list with that failure's message, and one item's
failure never removes sibling items' outcomes or aborts the batch. -/
theorem C1_batch_outcomes (op1 op2 : String → Except String Unit)
    (ids : List String) (bs : Nat) (hbs : 1 ≤ bs) :
    (batchModifyEmails op1 ids bs).successCount = (ids.filter (opOk op1)).length ∧
    (batchModifyEmails op1 ids bs).failures = opFailures op1 ids ∧
    (batchModifyEmails op1 ids bs).failureCount = (opFailures op1 ids).length ∧
    (batchModifyEmails op1 ids bs).successCount + (batchModifyEmails op1 ids bs).failureCount
      = ids.length ∧
    (batchDeleteEmails op2 ids bs).successCount = (ids.filter (opOk op2)).length ∧
    (batchDeleteEmails op2 ids bs).failures = opFailures op2 ids ∧
    (batchDeleteEmails op2 ids bs).successCount + (batchDeleteEmails op2 ids bs).failureCount
      = ids.length := by
  have h1 := batchRun_spec op1 ids bs hbs
  have h2 := batchRun_spec op2 ids bs hbs
  unfold batchModifyEmails batchDeleteEmails
  rw [h1, h2]
  refine ⟨rfl, rfl, rfl, ?_, rfl, rfl, ?_⟩
  · simp only
    rw [opFailures_length]
    exact length_filter_partition (opOk op1) ids
  · simp only
    rw [opFailures_length]
    exact length_filter_partition (opOk op2) ids

/-- Demonstration oracle: the remote call rejects for message id m2 with
message boom and fulfills for every other id. -/
def demoOp : String → Except String Unit :=
  fun id => if id = "m2" then Except.error "boom" else Except.ok ()

theorem C1_batch_outcomes_witness :
    (batchModifyEmails demoOp ["m1", "m2", "m3"] 2).successCount +
      (batchModifyEmails demoOp ["m1", "m2", "m3"] 2).failureCount = 3 :=
  (C1_batch_outcomes demoOp demoOp ["m1", "m2", "m3"] 2 (by decide)).2.2.2.1

theorem batchLoop_some (op : String → Except String Unit) (ids : List String)
    (bs : Nat) (hbs : 1 ≤ bs) :
    ∀ fuel i acc, ceilDiv (ids.length - i) bs ≤ fuel →
      batchLoop op ids bs fuel i acc =
        some ((chunks bs (ids.drop i)).foldl (fun a b => processChunk op b a) acc) := by
  intro fuel
  induction fuel with
  | zero =>
    intro i acc hf
    have hz : ids.length - i = 0 :=
      ceilDiv_eq_zero bs hbs _ (Nat.le_zero.mp hf)
    have hge : ids.length ≤ i := by omega
    have hnil : ids.drop i = [] := List.drop_eq_nil_of_le hge
    rw [hnil, chunks_nil]
    simp [batchLoop, Nat.not_lt.mpr hge]
  | succ f ih =>
    intro i acc hf
    by_cases hlt : i < ids.length
    · have hdne : ids.drop i ≠ [] := by
        intro h
        have hdl : ids.length ≤ i := by
          have := congrArg List.length h
          simp only [List.length_drop, List.length_nil] at this
          omega
        omega
      rw [chunks_cons bs hbs _ hdne]
      simp only [List.foldl_cons]
      have hbsi : i + bs - i = bs := by omega
      have hslice : jsSlice ids i (i + bs) = (ids.drop i).take bs := by
        unfold jsSlice
        rw [hbsi]
      have hdd : (ids.drop i).drop bs = ids.drop (i + bs) := by
        rw [List.drop_drop]
      have hnext : ceilDiv (ids.length - (i + bs)) bs ≤ f := by
        have heq : ids.length - (i + bs) = ids.length - i - bs := by omega
        rw [heq]
        have hstep := ceilDiv_sub bs hbs (ids.length - i) (by omega)
        omega
      show (if i < ids.length then
          batchLoop op ids bs f (i + bs) (processChunk op (jsSlice ids i (i + bs)) acc)
        else some acc) = _
      rw [if_pos hlt, ih (i + bs) _ hnext, hslice, hdd]
    · have hge : ids.length ≤ i := by omega
      have hnil : ids.drop i = [] := List.drop_eq_nil_of_le hge
      rw [hnil, chunks_nil]
      show (if i < ids.length then
          batchLoop op ids bs f (i + bs) (processChunk op (jsSlice ids i (i + bs)) acc)
        else some acc) = some acc
      rw [if_neg hlt]

theorem batchLoop_none (op : String → Except String Unit) (ids : List String)
    (bs : Nat) (hbs : 1 ≤ bs) :
    ∀ fuel i acc, fuel < ceilDiv (ids.length - i) bs →
      batchLoop op ids bs fuel i acc = none := by
  intro fuel
  induction fuel with
  | zero =>
    intro i acc hf
    have hpos : ids.length - i ≠ 0 := by
      intro h0
      rw [h0, ceilDiv_zero_left bs hbs] at hf
      omega
    have hlt : i < ids.length := by omega
    simp [batchLoop, hlt]
  | succ f ih =>
    intro i acc hf
    have hpos : ids.length - i ≠ 0 := by
      intro h0
      rw [h0, ceilDiv_zero_left bs hbs] at hf
      omega
    have hlt : i < ids.length := by omega
    have hnext : f < ceilDiv (ids.length - (i + bs)) bs := by
      have heq : ids.length - (i + bs) = ids.length - i - bs := by omega
      rw [heq]
      have hstep := ceilDiv_sub bs hbs (ids.length - i) (by omega)
      omega
    show (if i < ids.length then
        batchLoop op ids bs f (i + bs) (processChunk op (jsSlice ids i (i + bs)) acc)
      else some _) = none
    rw [if_pos hlt]
    exact ih (i + bs) _ hnext

theorem batchLoop_zero_stuck (op : String → Except String Unit) (ids : List String) :
    ∀ fuel i acc, i < ids.length → batchLoop op ids 0 fuel i acc = none := by
  intro fuel
  induction fuel with
  | zero =>
    intro i acc hlt
    simp [batchLoop, hlt]
  | succ f ih =>
    intro i acc hlt
    show (if i < ids.length then
        batchLoop op ids 0 f (i + 0) (processChunk op (jsSlice ids i (i + 0)) acc)
      else some acc) = none
    rw [if_pos hlt]
    exact ih i _ (by simpa using hlt)

/-- C9: for chunk size >= 1 the batch loop of both batch operations finishes
in exactly ceil(n/chunkSize) iterations, producing the chunked fold; with any
smaller fuel it is still running, and for chunk size 0 (the unvalidated
non-positive case, where the loop index never advances) it never terminates
on a nonempty target list. -/
theorem C9_batch_termination (op : String → Except String Unit) (ids : List String)
    (bs : Nat) :
    (1 ≤ bs →
      batchLoop op ids bs (ceilDiv ids.length bs) 0 (0, []) =
        some ((chunks bs ids).foldl (fun a b => processChunk op b a) (0, [])) ∧
      (∀ f, f < ceilDiv ids.length bs → batchLoop op ids bs f 0 (0, []) = none)) ∧
    (bs = 0 → ids ≠ [] → ∀ f, batchLoop op ids bs f 0 (0, []) = none) := by
  constructor
  · intro hbs
    constructor
    · have h := batchLoop_some op ids bs hbs (ceilDiv ids.length bs) 0 (0, [])
        (by simp)
      simpa using h
    · intro f hf
      exact batchLoop_none op ids bs hbs f 0 (0, []) (by simpa using hf)
  · intro hbs hne f
    subst hbs
    have hpos : 0 < ids.length := List.length_pos.mpr hne
    exact batchLoop_zero_stuck op ids f 0 (0, []) hpos

theorem C9_batch_termination_witness :
    batchLoop demoOp ["m1", "m2", "m3"] 2 (ceilDiv 3 2) 0 (0, []) =
      some ((chunks 2 ["m1", "m2", "m3"]).foldl (fun a b => processChunk demoOp b a) (0, [])) ∧
    batchLoop demoOp ["m1"] 0 5 0 (0, []) = none :=
  ⟨((C9_batch_termination demoOp ["m1", "m2", "m3"] 2).1 (by decide)).1,
   (C9_batch_termination demoOp ["m1"] 0).2 rfl (by decide) 5⟩

/-! ## String helpers shared by the email utilities (src/email-utils.ts)

JavaScript strings are modelled as Lean String; the JS string operations the
source uses (regex tests, join, replace) are embedded as executable functions
over the underlying character list. -/

/-- JavaScript regex whitespace class backslash-s, as a character test. -/
def jsWs (c : Char) : Bool :=
  c = ' ' || c = '\t' || c = '\n' || c = '\r' || c = '\x0b' || c = '\x0c' ||
  c.toNat = 0xa0 || c.toNat = 0x1680 || (0x2000 ≤ c.toNat && c.toNat ≤ 0x200a) ||
  c.toNat = 0x2028 || c.toNat = 0x2029 || c.toNat = 0x202f || c.toNat = 0x205f ||
  c.toNat = 0x3000 || c.toNat = 0xfeff

/-- Split a character list at every occurrence of sep (String.prototype.split
semantics: n separators produce n+1 pieces, possibly empty). -/
def splitChar (sep : Char) : List Char → List (List Char)
  | [] => [[]]
  | c :: cs =>
    if c = sep then [] :: splitChar sep cs
    else
      match splitChar sep cs with
      | g :: gs => (c :: g) :: gs
      | [] => [[c]]

/-- Nonempty run of characters that are neither whitespace nor the at sign:
one plus repetition of the class excluding backslash-s and the at sign. -/
def validChunk (cs : List Char) : Bool :=
  !cs.isEmpty && cs.all (fun c => !jsWs c)

/-- Domain side of the address rule: a nonempty whitespace-free run containing
a dot at an interior position, so that it splits as run dot run. -/
def validDomain (cs : List Char) : Bool :=
  !cs.isEmpty && cs.all (fun c => !jsWs c) && ((cs.drop 1).dropLast.contains '.')

/-- validateEmail (email-utils.ts lines 203-206): the anchored regex
requires local at domain, where local and the two domain halves are nonempty
runs without whitespace or a second at sign, and the domain contains an
interior dot.  The split-at-the-at-sign form below is extensionally the same
test. -/
def validateEmail (email : String) : Bool :=
  match splitChar '@' email.data with
  | [a, b] => validChunk a && validDomain b
  | _ => false

/-- sanitizeHeaderValue (email-utils.ts lines 211-213): strips every CR and
LF character. -/
def sanitizeHeaderValue (value : String) : String :=
  String.mk (value.data.filter (fun c => !(c = '\r' || c = '\n')))

/-- UTF-8 byte sequence of one code point, bytes as Nat. -/
def utf8Nat (n : Nat) : List Nat :=
  if n < 0x80 then [n]
  else if n < 0x800 then [0xc0 + n / 64, 0x80 + n % 64]
  else if n < 0x10000 then [0xe0 + n / 4096, 0x80 + n / 64 % 64, 0x80 + n % 64]
  else [0xf0 + n / 262144, 0x80 + n / 4096 % 64, 0x80 + n / 64 % 64, 0x80 + n % 64]

/-- UTF-8 bytes of a string (Buffer.from with default utf8 encoding). -/
def utf8Bytes (s : String) : List Nat :=
  (s.data.map (fun c => utf8Nat c.toNat)).flatten

/-- Base64 alphabet. -/
def base64Chars : List Char :=
  "ABCDEFGHIJKLMNOPQRSTUVWXYZabcdefghijklmnopqrstuvwxyz0123456789+/".data

def b64Char (n : Nat) : Char := base64Chars.getD n 'A'

/-- Standard base64 with padding over a byte list (Buffer.toString base64). -/
def base64Encode : List Nat → List Char
  | [] => []
  | [b1] => [b64Char (b1 / 4), b64Char (b1 % 4 * 16), '=', '=']
  | [b1, b2] => [b64Char (b1 / 4), b64Char (b1 % 4 * 16 + b2 / 16), b64Char (b2 % 16 * 4), '=']
  | b1 :: b2 :: b3 :: rest =>
    [b64Char (b1 / 4), b64Char (b1 % 4 * 16 + b2 / 16),
     b64Char (b2 % 16 * 4 + b3 / 64), b64Char (b3 % 64)] ++ base64Encode rest

/-- encodeEmailHeader (email-utils.ts lines 193-198): RFC 2047 encoded word
when the text contains any non-ASCII character, identity otherwise. -/
def encodeEmailHeader (text : String) : String :=
  if text.data.any (fun c => 0x7f < c.toNat) then
    "=?UTF-8?B?" ++ String.mk (base64Encode (utf8Bytes text)) ++ "?="
  else text

/-- JavaScript Array.prototype.join with a separator string. -/
def joinSep (sep : String) : List String → String
  | [] => ""
  | [x] => x
  | x :: xs => x ++ sep ++ joinSep sep xs

/-! ## Path model (node:path posix semantics as used by email-utils.ts and
the download_attachment handler)

Paths are strings over the posix separator.  resolve and join are modelled
for the use sites in this repository: the first argument is an absolute
normalized directory (itself an output of resolve), the working directory is
passed explicitly since the source derives it from process.cwd(). -/

def isSep (c : Char) : Bool := c = '/' || c = '\\'

/-- Case-insensitive literal matcher: consume the pattern characters from the
head of the input, returning the remainder on success. -/
def matchLit : List Char → List Char → Option (List Char)
  | [], rest => some rest
  | _ :: _, [] => none
  | p :: ps, c :: cs => if c.toLower = p.toLower then matchLit ps cs else none

/-- Regex of shape separator literal separator, anywhere in the path,
case-insensitive (for example the .ssh directory pattern). -/
def hasDirPattern (lit : List Char) : List Char → Bool
  | [] => false
  | c :: cs =>
    (isSep c && (match matchLit lit cs with
      | some (d :: _) => isSep d
      | _ => false)) || hasDirPattern lit cs

/-- Regex of shape separator lit1 separator lit2 separator, anywhere
(the .config/gcloud pattern). -/
def hasDirPattern2 (l1 l2 : List Char) : List Char → Bool
  | [] => false
  | c :: cs =>
    (isSep c && (match matchLit l1 cs with
      | some (d :: ds) =>
        isSep d && (match matchLit l2 ds with
          | some (e :: _) => isSep e
          | _ => false)
      | _ => false)) || hasDirPattern2 l1 l2 cs

/-- Regex of shape separator literal end-of-string (the .npmrc, .netrc,
credentials.json and token.json patterns). -/
def endsWithPat (lit : List Char) : List Char → Bool
  | [] => false
  | c :: cs => (isSep c && (matchLit lit cs == some [])) || endsWithPat lit cs

/-- Character class of the unflagged regex dot: anything but a line
terminator. -/
def isRegexAny (c : Char) : Bool :=
  !(c = '\n' || c = '\r' || c.toNat = 0x2028 || c.toNat = 0x2029)

/-- Tail of the .env pattern: either nothing, or a dot followed by at least
one regex-dot character, anchored at end of string. -/
def envTail : List Char → Bool
  | [] => true
  | '.' :: r => !r.isEmpty && r.all isRegexAny
  | _ => false

/-- The separator .env optional-extension end-of-string pattern. -/
def envPat : List Char → Bool
  | [] => false
  | c :: cs =>
    (isSep c && (match matchLit ".env".data cs with
      | some rest => envTail rest
      | none => false)) || envPat cs

/-- The anchored slash etc separator pattern. -/
def etcPat (cs : List Char) : Bool :=
  match cs with
  | '/' :: rest =>
    (match matchLit "etc".data rest with
     | some (d :: _) => isSep d
     | _ => false)
  | _ => false

/-- Loop over SENSITIVE_PATH_PATTERNS (email-utils.ts lines 215-229, tested
at lines 236-240): true when any pattern matches the resolved path. -/
def matchesAnyPattern (cs : List Char) : Bool :=
  hasDirPattern ".ssh".data cs || hasDirPattern ".gnupg".data cs ||
  hasDirPattern ".aws".data cs || hasDirPattern2 ".config".data "gcloud".data cs ||
  hasDirPattern ".docker".data cs || hasDirPattern ".kube".data cs ||
  endsWithPat ".npmrc".data cs || endsWithPat ".netrc".data cs ||
  envPat cs || endsWithPat "credentials.json".data cs ||
  endsWithPat "token.json".data cs || hasDirPattern ".git".data cs || etcPat cs

/-- Extend the first group of a split with one more leading character. -/
def consHead (c : Char) : List (List Char) → List (List Char)
  | [] => [[c]]
  | g :: gs => (c :: g) :: gs

/-- Split at every slash (posix path segmentation). -/
def splitSlash : List Char → List (List Char)
  | [] => [[]]
  | c :: cs =>
    if c = '/' then [] :: splitSlash cs
    else consHead c (splitSlash cs)

def segsOf (s : String) : List String := (splitSlash s.data).map (fun g => String.mk g)

/-- Segment normalization stack for an absolute path: empty and dot segments
vanish, dot-dot pops (and is dropped at the root), others push.  The stack
holds the kept segments in reverse order. -/
def normRun : List String → List String → List String
  | stack, [] => stack
  | stack, seg :: rest =>
    if seg = "" ∨ seg = "." then normRun stack rest
    else if seg = ".." then normRun stack.tail rest
    else normRun (seg :: stack) rest

/-- Posix normalization of an absolute path string. -/
def absNormalize (s : String) : String :=
  "/" ++ joinSep "/" (normRun [] (segsOf s)).reverse

/-- JavaScript String.prototype.startsWith. -/
def strStartsWith (p s : String) : Bool := p.data.isPrefixOf s.data

/-- node:path resolve for the call shapes in this repository: an absolute
second argument is normalized on its own, a relative one is normalized under
the given absolute base directory (the working directory or a resolved save
directory). -/
def resolvePosix (dir p : String) : String :=
  if strStartsWith "/" p then absNormalize p else absNormalize (dir ++ "/" ++ p)

/-- node:path join for the call shape in the download handler, where the
left argument is an absolute normalized directory without dot-dot segments;
on such inputs join coincides with normalizing the slash-joined
concatenation. -/
def joinPosix (dir p : String) : String := absNormalize (dir ++ "/" ++ p)

def dropTrailingSlashes (cs : List Char) : List Char :=
  (cs.reverse.dropWhile (fun c => c = '/')).reverse

def lastSeg (cs : List Char) : List Char :=
  (cs.reverse.takeWhile (fun c => c ≠ '/')).reverse

/-- node:path posix basename: empty stays empty, an all-slash path is the
root, otherwise trailing slashes are ignored and the part after the last
remaining slash is returned. -/
def basenamePosix (s : String) : String :=
  let cs := s.data
  let trimmed := dropTrailingSlashes cs
  if cs.isEmpty then ""
  else if trimmed.isEmpty then "/"
  else String.mk (lastSeg trimmed)

/-- The credential-storage root: resolve of the literal accounts directory
name against the working directory (email-utils.ts line 242). -/
def accountsDirOf (cwd : String) : String := resolvePosix cwd "accounts"

/-- isSensitivePath (email-utils.ts lines 235-251): any blocklist pattern
hit, or the resolved path equal to or beneath the accounts directory. -/
def isSensitivePath (cwd resolvedPath : String) : Bool :=
  matchesAnyPattern resolvedPath.data ||
    (let accountsDir := accountsDirOf cwd
     strStartsWith (accountsDir ++ "/") resolvedPath || resolvedPath == accountsDir)

/-- validateAttachmentPath (email-utils.ts lines 257-264): resolve then
block-or-pass. -/
def validateAttachmentPath (cwd filePath : String) : Except String Unit :=
  let resolved := resolvePosix cwd filePath
  if isSensitivePath cwd resolved then
    Except.error ("Attachment blocked for security reasons: " ++ filePath ++
      " matches a sensitive path pattern")
  else Except.ok ()

/-- validateDownloadPath (email-utils.ts lines 271-278): resolve then
block-or-pass for the download destination. -/
def validateDownloadPath (cwd fullPath : String) : Except String Unit :=
  let resolved := resolvePosix cwd fullPath
  if isSensitivePath cwd resolved then
    Except.error ("Download blocked for security reasons: target path " ++ fullPath ++
      " is inside a sensitive directory")
  else Except.ok ()

/-! ## Secure message builder (src/types.ts SendEmailParamsExtended,
src/email-utils.ts createEmailMessage / createEmailWithNodemailer) -/

inductive MimeType
  | textPlain
  | textHtml
  | multipartAlternative
deriving DecidableEq, Repr

/-- SendEmailParamsExtended (types.ts lines 142-148 extending 10-16).
Optional JS fields become Option. -/
structure SendEmailParamsExtended where
  «to» : List String
  subject : String
  body : String
  cc : Option (List String) := none
  bcc : Option (List String) := none
  htmlBody : Option String := none
  mimeType : Option MimeType := none
  threadId : Option String := none
  inReplyTo : Option String := none
  attachments : Option (List String) := none
deriving DecidableEq, Repr

/-- JavaScript truthiness of an optional string: undefined and the empty
string are falsy. -/
def jsTruthy : Option String → Bool
  | none => false
  | some s => !(s == "")

/-- Effective content type of createEmailMessage (email-utils.ts lines
286-290): the caller's mimeType defaulted to text/plain, upgraded to
multipart/alternative when a truthy htmlBody is present and the effective
type is not text/plain. -/
def effectiveMimeType (p : SendEmailParamsExtended) : MimeType :=
  let m0 := p.mimeType.getD MimeType.textPlain
  if jsTruthy p.htmlBody && !(m0 == MimeType.textPlain) then MimeType.multipartAlternative
  else m0

/-- Header lines of createEmailMessage (email-utils.ts lines 300-313): the
emailParts array before the body section, including the filter that drops
the empty strings standing for absent Cc, Bcc and reply headers. -/
def emailHeaderParts (p : SendEmailParamsExtended) : List String :=
  let encodedSubject := sanitizeHeaderValue (encodeEmailHeader p.subject)
  let safeInReplyTo : Option String :=
    if jsTruthy p.inReplyTo then some (sanitizeHeaderValue (p.inReplyTo.getD "")) else none
  ([ "From: me",
     "To: " ++ joinSep ", " (p.«to».map sanitizeHeaderValue),
     (match p.cc with
      | some cc => "Cc: " ++ joinSep ", " (cc.map sanitizeHeaderValue)
      | none => ""),
     (match p.bcc with
      | some l => "Bcc: " ++ joinSep ", " (l.map sanitizeHeaderValue)
      | none => ""),
     "Subject: " ++ encodedSubject,
     (match safeInReplyTo with
      | some s => if s == "" then "" else "In-Reply-To: " ++ s
      | none => ""),
     (match safeInReplyTo with
      | some s => if s == "" then "" else "References: " ++ s
      | none => ""),
     "MIME-Version: 1.0" ]).filter (fun s => !(s == ""))

/-- Body lines pushed by createEmailMessage after the headers (email-utils.ts
lines 315-343), by effective content type; boundary is the Math.random
generated token taken as a parameter. -/
def emailBodyParts (p : SendEmailParamsExtended) (boundary : String) : List String :=
  match effectiveMimeType p with
  | MimeType.multipartAlternative =>
    [ "Content-Type: multipart/alternative; boundary=\"" ++ boundary ++ "\"",
      "",
      "--" ++ boundary,
      "Content-Type: text/plain; charset=UTF-8",
      "Content-Transfer-Encoding: 7bit",
      "",
      p.body,
      "",
      "--" ++ boundary,
      "Content-Type: text/html; charset=UTF-8",
      "Content-Transfer-Encoding: 7bit",
      "",
      (if jsTruthy p.htmlBody then p.htmlBody.getD "" else p.body),
      "",
      "--" ++ boundary ++ "--" ]
  | MimeType.textHtml =>
    [ "Content-Type: text/html; charset=UTF-8",
      "Content-Transfer-Encoding: 7bit",
      "",
      (if jsTruthy p.htmlBody then p.htmlBody.getD "" else p.body) ]
  | MimeType.textPlain =>
    [ "Content-Type: text/plain; charset=UTF-8",
      "Content-Transfer-Encoding: 7bit",
      "",
      p.body ]

/-- createEmailMessage (email-utils.ts lines 284-346): validates the to
recipients (throwing on the first invalid one), then joins the header and
body lines with CRLF. -/
def createEmailMessage (p : SendEmailParamsExtended) (boundary : String) :
    Except String String :=
  match p.«to».find? (fun e => !validateEmail e) with
  | some e => Except.error ("Recipient email address is invalid: " ++ e)
  | none => Except.ok (joinSep "\r\n" (emailHeaderParts p ++ emailBodyParts p boundary))

/-- The mailOptions object handed to the external nodemailer transport by
createEmailWithNodemailer (email-utils.ts lines 382-393); header assembly
from these fields happens inside the external library. -/
structure MailOptions where
  «from» : String
  «to» : String
  cc : Option String
  bcc : Option String
  subject : String
  text : String
  html : Option String
  attachments : List (String × String)
  inReplyTo : Option String
  references : Option String
deriving DecidableEq, Repr

/-- Attachment collection loop of createEmailWithNodemailer (email-utils.ts
lines 367-380): each path is guarded by validateAttachmentPath and an
existence check (fsExists models node:fs existsSync), the first failure
aborting; surviving paths are paired with their basename. -/
def collectAttachments (fsExists : String → Bool) (cwd : String) :
    List String → Except String (List (String × String))
  | [] => Except.ok []
  | fp :: rest =>
    match validateAttachmentPath cwd fp with
    | Except.error e => Except.error e
    | Except.ok _ =>
      if fsExists fp then
        match collectAttachments fsExists cwd rest with
        | Except.error e => Except.error e
        | Except.ok r => Except.ok ((basenamePosix fp, fp) :: r)
      else Except.error ("File does not exist: " ++ fp)

/-- createEmailWithNodemailer (email-utils.ts lines 352-397): validates the
to recipients, collects the attachment list, then builds the mailOptions
record passed to the external nodemailer library, which assembles the final
RFC 822 message. -/
def createEmailWithNodemailer (fsExists : String → Bool) (cwd : String)
    (p : SendEmailParamsExtended) : Except String MailOptions :=
  match p.«to».find? (fun e => !validateEmail e) with
  | some e => Except.error ("Recipient email address is invalid: " ++ e)
  | none =>
    match collectAttachments fsExists cwd (p.attachments.getD []) with
    | Except.error e => Except.error e
    | Except.ok atts =>
      Except.ok
        { «from» := "me",
          «to» := joinSep ", " p.«to»,
          cc := p.cc.map (joinSep ", "),
          bcc := p.bcc.map (joinSep ", "),
          subject := p.subject,
          text := p.body,
          html := p.htmlBody,
          attachments := atts,
          inReplyTo := p.inReplyTo,
          references := p.inReplyTo }

/-- The filename-or-original choice of the handler, with JS truthiness: an
empty supplied filename falls back to the original. -/
def requestedName (filename : Option String) (originalFilename : String) : String :=
  match filename with
  | some f => if f = "" then originalFilename else f
  | none => originalFilename

/-- The path computation of the download_attachment tool handler (server
part_002 lines 424-442): basename of the requested or original filename,
rejection of degenerate names, resolution under the already-resolved save
directory, the traversal guard, and the sensitive-path check; on success the
returned path is the one the handler writes the attachment bytes to. -/
def downloadWritePath (cwd resolvedDir : String) (filename : Option String)
    (originalFilename : String) : Except String String :=
  let safeFilename := basenamePosix (requestedName filename originalFilename)
  if safeFilename = "" ∨ safeFilename = "." ∨ safeFilename = ".." then
    Except.error "Invalid attachment filename"
  else
    let fullPath := resolvePosix resolvedDir safeFilename
    if ¬ strStartsWith (resolvedDir ++ "/") fullPath = true ∧
        ¬ fullPath = joinPosix resolvedDir safeFilename then
      Except.error "Path traversal detected in attachment filename"
    else
      match validateDownloadPath cwd fullPath with
      | Except.error e => Except.error e
      | Except.ok _ => Except.ok fullPath

/-- Boolean success test for Except results. -/
def exceptOk {α : Type} : Except String α → Bool
  | Except.ok _ => true
  | Except.error _ => false

/-! ### Header sanitization (C2) -/

/-- A string free of carriage returns and line feeds. -/
def NoCRLF (s : String) : Prop := ∀ ch ∈ s.data, ch ≠ '\r' ∧ ch ≠ '\n'

instance instDecNoCRLF (s : String) : Decidable (NoCRLF s) :=
  inferInstanceAs (Decidable (∀ ch ∈ s.data, ch ≠ '\r' ∧ ch ≠ '\n'))

theorem noCRLF_append {a b : String} (ha : NoCRLF a) (hb : NoCRLF b) : NoCRLF (a ++ b) := by
  intro ch hch
  rw [String.data_append] at hch
  rcases List.mem_append.mp hch with h | h
  · exact ha ch h
  · exact hb ch h

theorem sanitize_noCRLF (v : String) : NoCRLF (sanitizeHeaderValue v) := by
  intro ch hch
  unfold sanitizeHeaderValue at hch
  have hmem := List.mem_filter.mp hch
  have := hmem.2
  constructor
  · intro h
    subst h
    simp at this
  · intro h
    subst h
    simp at this

theorem joinSep_noCRLF (sep : String) (hsep : NoCRLF sep) :
    ∀ l : List String, (∀ s ∈ l, NoCRLF s) → NoCRLF (joinSep sep l) := by
  intro l
  induction l with
  | nil =>
    intro _ ch hch
    simp [joinSep] at hch
  | cons x xs ih =>
    intro h
    cases xs with
    | nil =>
      simpa [joinSep] using h x (by simp)
    | cons y rest =>
      show NoCRLF (x ++ sep ++ joinSep sep (y :: rest))
      exact noCRLF_append (noCRLF_append (h x (by simp)) hsep)
        (ih (fun s hs => h s (List.mem_cons_of_mem x hs)))

theorem map_sanitize_noCRLF (l : List String) :
    ∀ s ∈ l.map sanitizeHeaderValue, NoCRLF s := by
  intro s hs
  rcases List.mem_map.mp hs with ⟨v, _, rfl⟩
  exact sanitize_noCRLF v

/-- C2 amended: on the attachment-free build path every header line of
createEmailMessage is free of CR and LF, because each header-bound string
(recipient addresses, subject after RFC 2047 encoding, reply identifier) is
passed through sanitizeHeaderValue before insertion; since the message joins
lines with CRLF, no attacker-influenced field can introduce a second header
there.  (The attachment-bearing nodemailer path performs no such stripping;
see the counterexample.) -/
theorem C2_header_lines_sanitized (p : SendEmailParamsExtended) :
    ∀ s ∈ emailHeaderParts p, ∀ ch ∈ s.data, ch ≠ '\r' ∧ ch ≠ '\n' := by
  intro s hs
  show NoCRLF s
  unfold emailHeaderParts at hs
  have hs' := (List.mem_filter.mp hs).1
  have hcomma : NoCRLF ", " := by decide
  simp only [List.mem_cons, List.not_mem_nil, or_false] at hs'
  rcases hs' with rfl | rfl | rfl | rfl | rfl | rfl | rfl | rfl
  · decide
  · exact noCRLF_append (by decide)
      (joinSep_noCRLF ", " hcomma _ (map_sanitize_noCRLF _))
  · cases p.cc with
    | none => decide
    | some l =>
      exact noCRLF_append (by decide)
        (joinSep_noCRLF ", " hcomma _ (map_sanitize_noCRLF _))
  · cases p.bcc with
    | none => decide
    | some l =>
      exact noCRLF_append (by decide)
        (joinSep_noCRLF ", " hcomma _ (map_sanitize_noCRLF _))
  · exact noCRLF_append (by decide)
      (sanitize_noCRLF (encodeEmailHeader p.subject))
  · by_cases ht : jsTruthy p.inReplyTo
    · simp only [ht, if_true]
      by_cases hz : sanitizeHeaderValue (p.inReplyTo.getD "") == ""
      · simp only [hz, if_true]
        decide
      · simp only [hz, if_false]
        exact noCRLF_append (by decide)
          (sanitize_noCRLF (p.inReplyTo.getD ""))
    · simp only [ht, Bool.false_eq_true, if_false]
      decide
  · by_cases ht : jsTruthy p.inReplyTo
    · simp only [ht, if_true]
      by_cases hz : sanitizeHeaderValue (p.inReplyTo.getD "") == ""
      · simp only [hz, if_true]
        decide
      · simp only [hz, if_false]
        exact noCRLF_append (by decide)
          (sanitize_noCRLF (p.inReplyTo.getD ""))
    · simp only [ht, Bool.false_eq_true, if_false]
      decide
  · decide

/-- Forged-header request used to probe sanitization: the subject ends a
header line and starts a fake Bcc header, and an attachment makes sendEmail
take the nodemailer build path. -/
def c2Params : SendEmailParamsExtended :=
  { «to» := ["a@b.co"], subject := "Hi\r\nBcc: evil@x.com", body := "B",
    attachments := some ["/home/user/project/report.pdf"] }

/-- File-existence oracle under which the probe attachment exists. -/
def c2Fs : String → Bool := fun p => p == "/home/user/project/report.pdf"

/-- C2 counterexample: on the attachment-bearing build path the subject
reaches the mailOptions handed to the external mail library still containing
its CR and LF characters: no sanitizeHeaderValue stripping is applied there,
contrary to the claim that stripping happens on every build path. -/
theorem C2_counterexample :
    createEmailWithNodemailer c2Fs "/home/user/project" c2Params =
      Except.ok
        { «from» := "me", «to» := "a@b.co", cc := none, bcc := none,
          subject := "Hi\r\nBcc: evil@x.com", text := "B", html := none,
          attachments := [("report.pdf", "/home/user/project/report.pdf")],
          inReplyTo := none, references := none } ∧
    '\r' ∈ "Hi\r\nBcc: evil@x.com".data ∧
    sanitizeHeaderValue "Hi\r\nBcc: evil@x.com" ≠ "Hi\r\nBcc: evil@x.com" := by
  refine ⟨rfl, by decide, by decide⟩

/-- Concrete reply request exercising every sanitized header with hostile
input. -/
def c2WitnessParams : SendEmailParamsExtended :=
  { «to» := ["a@b.co", "c@d.co"], subject := "Hi\r\nBcc: evil@x.com", body := "B",
    cc := some ["e@f.co"], bcc := some ["g@h.co"], inReplyTo := some "<id\r\n@x>" }

theorem C2_header_lines_sanitized_witness :
    ("Subject: HiBcc: evil@x.com" ∈ emailHeaderParts c2WitnessParams) ∧
    (∀ ch ∈ "Subject: HiBcc: evil@x.com".data, ch ≠ '\r' ∧ ch ≠ '\n') :=
  ⟨by decide,
   C2_header_lines_sanitized c2WitnessParams "Subject: HiBcc: evil@x.com" (by decide)⟩

/-! ### Content-type selection (C4) -/

/-- C4 amended: createEmailMessage selects the body shape from the effective
content type: with mimeType unset or text/plain the message is single-part
plain text carrying the body verbatim even when an htmlBody is supplied
(the html is дropped); a truthy htmlBody yields the two-part alternative
shape (plain part first, carrying the body verbatim, html part second) only
when mimeType is explicitly text/html or multipart/alternative; and
mimeType text/html without a truthy htmlBody yields a single-part html
message carrying the body. -/
theorem C4_content_type_selection (p : SendEmailParamsExtended) (boundary : String)
    (hvalid : p.«to».find? (fun e => !validateEmail e) = none) :
    ((p.mimeType = none ∨ p.mimeType = some MimeType.textPlain) →
      createEmailMessage p boundary = Except.ok (joinSep "\r\n" (emailHeaderParts p ++
        ["Content-Type: text/plain; charset=UTF-8",
         "Content-Transfer-Encoding: 7bit", "", p.body]))) ∧
    (jsTruthy p.htmlBody = true →
      (p.mimeType = some MimeType.textHtml ∨ p.mimeType = some MimeType.multipartAlternative) →
      createEmailMessage p boundary = Except.ok (joinSep "\r\n" (emailHeaderParts p ++
        ["Content-Type: multipart/alternative; boundary=\"" ++ boundary ++ "\"",
         "",
         "--" ++ boundary,
         "Content-Type: text/plain; charset=UTF-8",
         "Content-Transfer-Encoding: 7bit",
         "",
         p.body,
         "",
         "--" ++ boundary,
         "Content-Type: text/html; charset=UTF-8",
         "Content-Transfer-Encoding: 7bit",
         "",
         p.htmlBody.getD "",
         "",
         "--" ++ boundary ++ "--"]))) ∧
    (jsTruthy p.htmlBody = false → p.mimeType = some MimeType.textHtml →
      createEmailMessage p boundary = Except.ok (joinSep "\r\n" (emailHeaderParts p ++
        ["Content-Type: text/html; charset=UTF-8",
         "Content-Transfer-Encoding: 7bit", "", p.body]))) := by
  refine ⟨?_, ?_, ?_⟩
  · rintro (hm | hm) <;>
      simp [createEmailMessage, hvalid, emailBodyParts, effectiveMimeType, hm]
  · rintro ht (hm | hm) <;>
      simp [createEmailMessage, hvalid, emailBodyParts, effectiveMimeType, hm, ht]
  · intro ht hm
    simp [createEmailMessage, hvalid, emailBodyParts, effectiveMimeType, hm, ht]

/-- Request with both a plain and an HTML body but no explicit mimeType. -/
def c4Params : SendEmailParamsExtended :=
  { «to» := ["a@b.co"], subject := "S", body := "B", htmlBody := some "<p>H</p>" }

/-- C4 counterexample: an HTML body given alongside the plain body with
mimeType unset does not produce a two-part multipart/alternative message:
the built message is single-part text/plain and the HTML body is dropped. -/
theorem C4_counterexample :
    c4Params.htmlBody = some "<p>H</p>" ∧
    createEmailMessage c4Params "BNDY" =
      Except.ok ("From: me\r\nTo: a@b.co\r\nSubject: S\r\nMIME-Version: 1.0\r\n" ++
        "Content-Type: text/plain; charset=UTF-8\r\nContent-Transfer-Encoding: 7bit\r\n\r\nB") := by
  refine ⟨rfl, rfl⟩

theorem C4_content_type_selection_witness :
    createEmailMessage c4Params "BNDY" = Except.ok (joinSep "\r\n" (emailHeaderParts c4Params ++
      ["Content-Type: text/plain; charset=UTF-8",
       "Content-Transfer-Encoding: 7bit", "", c4Params.body])) :=
  (C4_content_type_selection c4Params "BNDY" (by decide)).1 (Or.inl rfl)

/-! ### Recipient validation (C8) -/

/-- C8 amended: both build paths validate every to recipient against the
syntactic address rule and fail with an error naming the first invalid one;
cc and bcc recipients are not checked by the builders. -/
theorem C8_recipient_validation (p : SendEmailParamsExtended) (boundary : String)
    (fsExists : String → Bool) (cwd : String) :
    (∀ e, p.«to».find? (fun x => !validateEmail x) = some e →
      e ∈ p.«to» ∧ validateEmail e = false ∧
      createEmailMessage p boundary =
        Except.error ("Recipient email address is invalid: " ++ e) ∧
      createEmailWithNodemailer fsExists cwd p =
        Except.error ("Recipient email address is invalid: " ++ e)) ∧
    (p.«to».find? (fun x => !validateEmail x) = none →
      exceptOk (createEmailMessage p boundary) = true) := by
  constructor
  · intro e he
    refine ⟨List.mem_of_find?_eq_some he, ?_, ?_, ?_⟩
    · have := List.find?_some he
      simpa using this
    · simp [createEmailMessage, he]
    · simp [createEmailWithNodemailer, he]
  · intro hn
    simp [createEmailMessage, hn, exceptOk]

/-- Request whose cc list holds a syntactically invalid address while every
to recipient is valid. -/
def c8Params : SendEmailParamsExtended :=
  { «to» := ["a@b.co"], subject := "S", body := "B", cc := some ["not-an-email"] }

/-- C8 counterexample: an invalid cc recipient is not rejected: both build
paths succeed, so only to recipients are validated, contrary to the claim
that every recipient (to, cc and bcc) is checked. -/
theorem C8_counterexample :
    validateEmail "not-an-email" = false ∧
    c8Params.cc = some ["not-an-email"] ∧
    exceptOk (createEmailMessage c8Params "BNDY") = true ∧
    exceptOk (createEmailWithNodemailer (fun _ => true) "/home/user/project" c8Params) = true := by
  refine ⟨by decide, rfl, by decide, by decide⟩

/-- Request whose second to recipient is invalid. -/
def c8BadTo : SendEmailParamsExtended :=
  { «to» := ["a@b.co", "nope"], subject := "S", body := "B" }

theorem C8_recipient_validation_witness :
    createEmailMessage c8BadTo "BNDY" =
      Except.error ("Recipient email address is invalid: " ++ "nope") :=
  ((C8_recipient_validation c8BadTo "BNDY" (fun _ => true) "/x").1 "nope" (by decide)).2.2.1

/-! ## Account registry (account-manager.ts AccountManager)

The registry file maps account emails (JS object keys, in insertion order) to
their config; the persisted token file of each account is a separate entry.
Both are modelled as association lists in insertion order, since JS objects
preserve it for string keys, and state is threaded explicitly.  Timestamps
are abstract Nat values and the credential blob an abstract string. -/

/-- AccountConfig (account-manager.ts lines 7-11). -/
structure AccountConfig where
  email : String
  addedAt : Nat
  lastUsed : Option Nat := none
deriving DecidableEq, Repr

/-- AccountsRegistry (account-manager.ts lines 13-16). -/
structure AccountsRegistry where
  accounts : List (String × AccountConfig) := []
  defaultAccount : Option String := none
deriving DecidableEq, Repr

/-- Object key assignment: replace the value in place when the key exists
(keeping its position), append otherwise. -/
def setKey {α : Type} : List (String × α) → String → α → List (String × α)
  | [], e, v => [(e, v)]
  | (k, w) :: rest, e, v =>
    if k == e then (k, v) :: rest else (k, w) :: setKey rest e v

/-- Truthiness of registry.accounts[email] as used by accountExists and the
removal guard (account-manager.ts lines 86, 167-170). -/
def accountExists (reg : AccountsRegistry) (email : String) : Bool :=
  (reg.accounts.find? (fun kv => kv.1 == email)).isSome

/-- The process state the AccountManager mutates: the registry document plus
the per-account token files (accounts/email/token.json). -/
structure AccountsState where
  registry : AccountsRegistry
  tokens : List (String × String) := []
deriving DecidableEq, Repr

/-- AccountManager.addAccount (account-manager.ts lines 52-81): saves the
token when the consent flow returned credentials, overwrites or creates the
registry entry with a fresh addedAt, and sets the account as default exactly
when the accounts map then has a single key.  cred models
client.credentials from the external consent flow. -/
def AccountManager.addAccount (now : Nat) (email : String) (cred : Option String)
    (st : AccountsState) : AccountsState :=
  let tokens :=
    match cred with
    | some c => setKey st.tokens email c
    | none => st.tokens
  let accounts := setKey st.registry.accounts email ⟨email, now, none⟩
  let dflt :=
    if accounts.length == 1 then some email else st.registry.defaultAccount
  ⟨⟨accounts, dflt⟩, tokens⟩

/-- AccountManager.removeAccount (account-manager.ts lines 83-104): errors
when the account is absent, otherwise removes the account directory (its
token) and the registry entry, and reassigns the default to the first
remaining key, or unsets it, when the removed account was the default. -/
def AccountManager.removeAccount (email : String) (st : AccountsState) :
    Except String AccountsState :=
  if !(accountExists st.registry email) then
    Except.error ("Account " ++ email ++ " not found")
  else
    let tokens := st.tokens.filter (fun kv => !(kv.1 == email))
    let accounts := st.registry.accounts.filter (fun kv => !(kv.1 == email))
    let dflt :=
      if st.registry.defaultAccount == some email then (accounts.map Prod.fst).head?
      else st.registry.defaultAccount
    Except.ok ⟨⟨accounts, dflt⟩, tokens⟩

/-- AccountManager.setDefaultAccount (account-manager.ts lines 116-125). -/
def AccountManager.setDefaultAccount (email : String) (st : AccountsState) :
    Except String AccountsState :=
  if !(accountExists st.registry email) then
    Except.error ("Account " ++ email ++ " not found")
  else Except.ok ⟨⟨st.registry.accounts, some email⟩, st.tokens⟩

/-- MCP tool results: textResult versus errorResult (server part_002 lines
59-68). -/
inductive ToolResult
  | text (s : String)
  | errorText (s : String)
deriving DecidableEq, Repr

/-- The add_account tool handler (server part_002 lines 947-966): an already
existing account yields an informational text result without touching the
state; otherwise AccountManager.addAccount runs. -/
def addAccountTool (now : Nat) (email : String) (cred : Option String)
    (st : AccountsState) : ToolResult × AccountsState :=
  if accountExists st.registry email then
    (ToolResult.text ("Account " ++ email ++ " already exists."), st)
  else
    (ToolResult.text ("Account " ++ email ++
      " added successfully. You may need to authenticate in your browser."),
     AccountManager.addAccount now email cred st)

/-- The registry invariant: the default account, when set, names a key of
the accounts map. -/
def RegistryWF (reg : AccountsRegistry) : Prop :=
  ∀ d, reg.defaultAccount = some d → d ∈ reg.accounts.map Prod.fst

theorem setKey_keys {α : Type} (e : String) (v : α) :
    ∀ l : List (String × α),
      (setKey l e v).map Prod.fst =
        if e ∈ l.map Prod.fst then l.map Prod.fst else l.map Prod.fst ++ [e] := by
  intro l
  induction l with
  | nil => simp [setKey]
  | cons kv rest ih =>
    obtain ⟨k, w⟩ := kv
    by_cases hk : k == e
    · have : k = e := by simpa using hk
      subst this
      simp [setKey, hk]
    · have hne : ¬ e = k := by
        intro h
        subst h
        simp at hk
      simp only [setKey, hk, Bool.false_eq_true, if_false, List.map_cons, List.mem_cons]
      rw [ih]
      by_cases hmem : e ∈ rest.map Prod.fst
      · simp [hmem, hne]
      · simp [hmem, hne]

theorem mem_setKey_keys {α : Type} (e : String) (v : α) (l : List (String × α)) :
    e ∈ (setKey l e v).map Prod.fst := by
  rw [setKey_keys]
  by_cases hmem : e ∈ l.map Prod.fst
  · rw [if_pos hmem]
    exact hmem
  · rw [if_neg hmem]
    exact List.mem_append.mpr (Or.inr (by simp))

theorem keys_subset_setKey {α : Type} (e : String) (v : α) (l : List (String × α))
    (d : String) (hd : d ∈ l.map Prod.fst) : d ∈ (setKey l e v).map Prod.fst := by
  rw [setKey_keys]
  by_cases hmem : e ∈ l.map Prod.fst
  · rw [if_pos hmem]
    exact hd
  · rw [if_neg hmem]
    exact List.mem_append.mpr (Or.inl hd)

theorem keys_filter_ne (email : String) (l : List (String × AccountConfig)) :
    (l.filter (fun kv => !(kv.1 == email))).map Prod.fst =
      (l.map Prod.fst).filter (fun k => !(k == email)) := by
  induction l with
  | nil => simp
  | cons kv rest ih =>
    by_cases hk : kv.1 == email
    · simp [List.filter, hk, ih]
    · simp [List.filter, hk, ih]

/-- C6: the default-references-an-existing-identity invariant is preserved
by addAccount, removeAccount and setDefaultAccount; the first added identity
becomes the default; adding a further (new) identity leaves the default
unchanged; and removing the current default deterministically reassigns it
to the first remaining identity in registry order when one exists and unsets
it otherwise, never leaving it dangling. -/
theorem C6_registry_default_invariant :
    (∀ now e cred st, RegistryWF st.registry →
      RegistryWF ((AccountManager.addAccount now e cred st).registry)) ∧
    (∀ e st st', RegistryWF st.registry →
      AccountManager.removeAccount e st = Except.ok st' → RegistryWF st'.registry) ∧
    (∀ e st st', AccountManager.setDefaultAccount e st = Except.ok st' →
      RegistryWF st'.registry) ∧
    (∀ now e cred st, st.registry.accounts = [] →
      (AccountManager.addAccount now e cred st).registry.defaultAccount = some e) ∧
    (∀ now e cred st, st.registry.accounts ≠ [] →
      e ∉ st.registry.accounts.map Prod.fst →
      (AccountManager.addAccount now e cred st).registry.defaultAccount =
        st.registry.defaultAccount) ∧
    (∀ e st st', AccountManager.removeAccount e st = Except.ok st' →
      st.registry.defaultAccount = some e →
      st'.registry.defaultAccount = (st'.registry.accounts.map Prod.fst).head? ∧
      (st'.registry.accounts = [] → st'.registry.defaultAccount = none)) := by
  refine ⟨?_, ?_, ?_, ?_, ?_, ?_⟩
  · intro now e cred st hwf d hd
    unfold AccountManager.addAccount at hd
    simp only at hd ⊢
    by_cases hlen : (setKey st.registry.accounts e ⟨e, now, none⟩).length == 1
    · rw [if_pos hlen] at hd
      have hde : e = d := by simpa using hd
      subst hde
      exact mem_setKey_keys e _ _
    · rw [if_neg hlen] at hd
      exact keys_subset_setKey e _ _ d (hwf d hd)
  · intro e st st' hwf hrm d hd
    unfold AccountManager.removeAccount at hrm
    by_cases hex : accountExists st.registry e
    · rw [if_neg (by simp [hex])] at hrm
      cases hrm
      simp only at hd ⊢
      by_cases hdef : st.registry.defaultAccount == some e
      · rw [if_pos hdef] at hd
        exact List.mem_of_mem_head? (Option.mem_def.mpr hd)
      · rw [if_neg hdef] at hd
        have hmem := hwf d hd
        have hdne : ¬ d == e := by
          intro hde
          have : d = e := by simpa using hde
          subst this
          apply hdef
          rw [← hd]
          simp
        rw [keys_filter_ne]
        exact List.mem_filter.mpr ⟨hmem, by simpa using hdne⟩
    · rw [if_pos (by simp [hex])] at hrm
      cases hrm
  · intro e st st' hset d hd
    unfold AccountManager.setDefaultAccount at hset
    by_cases hex : accountExists st.registry e
    · rw [if_neg (by simp [hex])] at hset
      cases hset
      simp only at hd
      have hde : e = d := by simpa using hd
      subst hde
      unfold accountExists at hex
      rcases Option.isSome_iff_exists.mp hex with ⟨kv, hkv⟩
      have hmem := List.mem_of_find?_eq_some hkv
      have hkey := List.find?_some hkv
      have hk1 : kv.1 = e := by simpa using hkey
      exact List.mem_map.mpr ⟨kv, hmem, hk1⟩
    · rw [if_pos (by simp [hex])] at hset
      cases hset
  · intro now e cred st h0
    unfold AccountManager.addAccount
    simp [h0, setKey]
  · intro now e cred st hne hnotin
    unfold AccountManager.addAccount
    simp only
    have hlen : (setKey st.registry.accounts e ⟨e, now, none⟩).length =
        st.registry.accounts.length + 1 := by
      have hkeys := setKey_keys e (⟨e, now, none⟩ : AccountConfig) st.registry.accounts
      by_cases hmem : e ∈ st.registry.accounts.map Prod.fst
      · exact absurd hmem hnotin
      · rw [if_neg hmem] at hkeys
        have := congrArg List.length hkeys
        simpa using this
    have hlen2 : ¬ ((setKey st.registry.accounts e ⟨e, now, none⟩).length == 1) = true := by
      rw [hlen]
      have hzero : st.registry.accounts.length ≠ 0 := by
        intro h
        exact hne (List.eq_nil_of_length_eq_zero h)
      simp only [beq_iff_eq]
      omega
    rw [if_neg hlen2]
  · intro e st st' hrm hdef
    unfold AccountManager.removeAccount at hrm
    by_cases hex : accountExists st.registry e
    · rw [if_neg (by simp [hex])] at hrm
      cases hrm
      constructor
      · simp only
        rw [if_pos (by simp [hdef])]
      · intro hempty
        simp only at hempty ⊢
        rw [if_pos (by simp [hdef]), hempty]
        rfl
    · rw [if_pos (by simp [hex])] at hrm
      cases hrm

theorem C6_registry_default_invariant_witness :
    ((AccountManager.addAccount 1 "a@x.com" (some "credA") ⟨⟨[], none⟩, []⟩).registry.defaultAccount
      = some "a@x.com") ∧
    ((AccountManager.addAccount 2 "b@x.com" (some "credB")
        (AccountManager.addAccount 1 "a@x.com" (some "credA") ⟨⟨[], none⟩, []⟩)).registry.defaultAccount
      = (AccountManager.addAccount 1 "a@x.com" (some "credA") ⟨⟨[], none⟩, []⟩).registry.defaultAccount) :=
  ⟨(C6_registry_default_invariant.2.2.2.1) 1 "a@x.com" (some "credA") ⟨⟨[], none⟩, []⟩ rfl,
   (C6_registry_default_invariant.2.2.2.2.1) 2 "b@x.com" (some "credB")
     (AccountManager.addAccount 1 "a@x.com" (some "credA") ⟨⟨[], none⟩, []⟩)
     (by decide) (by decide)⟩

/-- State holding one registered account with its original timestamp and
stored credential. -/
def c7St : AccountsState :=
  ⟨⟨[("a@x.com", ⟨"a@x.com", 5, none⟩)], some "a@x.com"⟩, [("a@x.com", "oldCred")]⟩

/-- C7 counterexample: AccountManager.addAccount called with an already
registered accountId does not fail: it overwrites the registry entry
(addedAt changes from 5 to 9) and the stored credential (oldCred becomes
newCred), refuting the no-op-error claim at the store level. -/
theorem C7_counterexample :
    accountExists c7St.registry "a@x.com" = true ∧
    (AccountManager.addAccount 9 "a@x.com" (some "newCred") c7St).registry.accounts =
      [("a@x.com", ⟨"a@x.com", 9, none⟩)] ∧
    (AccountManager.addAccount 9 "a@x.com" (some "newCred") c7St).tokens =
      [("a@x.com", "newCred")] := by
  refine ⟨rfl, rfl, rfl⟩

/-- C7 amended: the duplicate check lives in addAccount's callers, not in
the store: when the accountId is already present, the add_account tool
handler replies with an already-exists text (a plain text result, not an
error result) and leaves the whole state, including the entry's addedAt and
its stored credential, untouched, never invoking AccountManager.addAccount;
the store-level addAccount called directly would overwrite. -/
theorem C7_duplicate_add_guard (now : Nat) (e : String) (cred : Option String)
    (st : AccountsState) (h : accountExists st.registry e = true) :
    addAccountTool now e cred st =
      (ToolResult.text ("Account " ++ e ++ " already exists."), st) := by
  simp [addAccountTool, h]

theorem C7_duplicate_add_guard_witness :
    addAccountTool 9 "a@x.com" (some "newCred") c7St =
      (ToolResult.text ("Account " ++ "a@x.com" ++ " already exists."), c7St) :=
  C7_duplicate_add_guard 9 "a@x.com" (some "newCred") c7St (by decide)

/-! ### Path guard (C5) -/

theorem strStartsWith_append (p t : String) : strStartsWith p (p ++ t) = true := by
  simp only [strStartsWith, String.data_append, List.isPrefixOf_iff_prefix]
  exact List.prefix_append _ _

theorem collectAttachments_cons (fsExists : String → Bool) (cwd x : String)
    (xs : List String) :
    collectAttachments fsExists cwd (x :: xs) =
      match validateAttachmentPath cwd x with
      | Except.error e => Except.error e
      | Except.ok _ =>
        if fsExists x then
          match collectAttachments fsExists cwd xs with
          | Except.error e => Except.error e
          | Except.ok r => Except.ok ((basenamePosix x, x) :: r)
        else Except.error ("File does not exist: " ++ x) := rfl

theorem collectAttachments_ok (fsExists : String → Bool) (cwd : String) :
    ∀ (l : List String) (r : List (String × String)),
      collectAttachments fsExists cwd l = Except.ok r →
      ∀ fp ∈ l, validateAttachmentPath cwd fp = Except.ok () ∧ fsExists fp = true := by
  intro l
  induction l with
  | nil =>
    intro r _ fp hfp
    simp at hfp
  | cons x xs ih =>
    intro r h fp hfp
    rw [collectAttachments_cons] at h
    cases hv : validateAttachmentPath cwd x with
    | error e =>
      rw [hv] at h
      simp only [] at h
      cases h
    | ok u =>
      rw [hv] at h
      simp only [] at h
      by_cases hf : fsExists x
      · rw [if_pos hf] at h
        cases hrec : collectAttachments fsExists cwd xs with
        | error e => rw [hrec] at h; cases h
        | ok r2 =>
          rw [hrec] at h
          simp only [] at h
          rcases List.mem_cons.mp hfp with rfl | hfp2
          · cases u
            exact ⟨hv, hf⟩
          · exact ih r2 hrec fp hfp2
      · rw [if_neg hf] at h
        cases h

/-- C5: path classification is a pure function of the resolved path: the
ssh-key probe resolves under the .ssh pattern and is blocked; any path equal
to the credential-storage root (resolve of accounts) or beneath it is
blocked regardless of filename; the plain relative report.pdf, resolving
outside every pattern and outside the credential root, is allowed; and the
attachment-bearing build succeeds only when every attachment path passes
the guard and exists, the first failure aborting the whole build. -/
instance instDecEqExcept {ε α : Type} [DecidableEq ε] [DecidableEq α] :
    DecidableEq (Except ε α) := fun x y =>
  match x, y with
  | Except.ok a, Except.ok b =>
    match decEq a b with
    | isTrue h => isTrue (by rw [h])
    | isFalse h => isFalse (fun hc => by cases hc; exact h rfl)
  | Except.error a, Except.error b =>
    match decEq a b with
    | isTrue h => isTrue (by rw [h])
    | isFalse h => isFalse (fun hc => by cases hc; exact h rfl)
  | Except.ok _, Except.error _ => isFalse (fun hc => by cases hc)
  | Except.error _, Except.ok _ => isFalse (fun hc => by cases hc)

set_option maxHeartbeats 2000000 in
theorem C5_path_guard :
    validateAttachmentPath "/home/user/project" "~/.ssh/id_rsa" =
      Except.error ("Attachment blocked for security reasons: " ++ "~/.ssh/id_rsa" ++
        " matches a sensitive path pattern") ∧
    (∀ cwd rest : String,
      isSensitivePath cwd ((accountsDirOf cwd ++ "/") ++ rest) = true ∧
      isSensitivePath cwd (accountsDirOf cwd) = true) ∧
    validateAttachmentPath "/home/user/project" "./report.pdf" = Except.ok () ∧
    (∀ (fsExists : String → Bool) (cwd : String) (p : SendEmailParamsExtended)
        (r : MailOptions),
      createEmailWithNodemailer fsExists cwd p = Except.ok r →
      ∀ fp ∈ p.attachments.getD [],
        validateAttachmentPath cwd fp = Except.ok () ∧ fsExists fp = true) := by
  refine ⟨by decide, ?_, by decide, ?_⟩
  · intro cwd rest
    have hsw := strStartsWith_append (accountsDirOf cwd ++ "/") rest
    constructor
    · simp [isSensitivePath, hsw]
    · simp [isSensitivePath]
  · intro fsExists cwd p r h fp hfp
    unfold createEmailWithNodemailer at h
    cases hfind : p.«to».find? (fun e => !validateEmail e) with
    | some e => rw [hfind] at h; cases h
    | none =>
      rw [hfind] at h
      cases hcol : collectAttachments fsExists cwd (p.attachments.getD []) with
      | error e => rw [hcol] at h; cases h
      | ok atts => exact collectAttachments_ok fsExists cwd _ atts hcol fp hfp

/-- Attachment request whose single path is a plain project file. -/
def c5Params : SendEmailParamsExtended :=
  { «to» := ["a@b.co"], subject := "S", body := "B",
    attachments := some ["/home/user/project/report.pdf"] }

/-- File-existence oracle for the C5 witness. -/
def c5Fs : String → Bool := fun p => p == "/home/user/project/report.pdf"

/-- The mailOptions value the C5 witness build produces. -/
def c5Mail : MailOptions :=
  { «from» := "me", «to» := "a@b.co", cc := none, bcc := none, subject := "S",
    text := "B", html := none,
    attachments := [("report.pdf", "/home/user/project/report.pdf")],
    inReplyTo := none, references := none }

theorem C5_path_guard_witness :
    validateAttachmentPath "/home/user/project" "/home/user/project/report.pdf" =
      Except.ok () ∧ c5Fs "/home/user/project/report.pdf" = true :=
  C5_path_guard.2.2.2 c5Fs "/home/user/project" c5Params c5Mail rfl
    "/home/user/project/report.pdf" (by decide)

/-! ### Download path containment (C10)

The resolved save directory (the output of path.resolve on savePath) is a
normalized absolute path: a slash followed by slash-joined clean segments.
The lemmas below establish how the posix path model acts on such inputs. -/

/-- A clean path segment: nonempty, not a dot segment, slash-free. -/
def cleanSeg (s : String) : Prop :=
  s ≠ "" ∧ s ≠ "." ∧ s ≠ ".." ∧ '/' ∉ s.data

instance instDecCleanSeg (s : String) : Decidable (cleanSeg s) :=
  inferInstanceAs (Decidable (s ≠ "" ∧ s ≠ "." ∧ s ≠ ".." ∧ '/' ∉ s.data))

theorem consHead_ne_nil (c : Char) (l : List (List Char)) : consHead c l ≠ [] := by
  cases l <;> simp [consHead]

theorem splitSlash_ne_nil : ∀ cs : List Char, splitSlash cs ≠ [] := by
  intro cs
  induction cs with
  | nil => simp [splitSlash]
  | cons c cs ih =>
    by_cases h : c = '/'
    · simp [splitSlash, h]
    · simp only [splitSlash, if_neg h]
      exact consHead_ne_nil c (splitSlash cs)

theorem consHead_append (c : Char) (l m : List (List Char)) (h : l ≠ []) :
    consHead c (l ++ m) = consHead c l ++ m := by
  cases l with
  | nil => exact absurd rfl h
  | cons g gs => simp [consHead]

theorem splitSlash_append (xs ys : List Char) :
    splitSlash (xs ++ '/' :: ys) = splitSlash xs ++ splitSlash ys := by
  induction xs with
  | nil => simp [splitSlash]
  | cons c cs ih =>
    by_cases h : c = '/'
    · simp [splitSlash, h, ih]
    · simp only [List.cons_append, splitSlash, if_neg h]
      show consHead c (splitSlash (cs ++ '/' :: ys)) =
        consHead c (splitSlash cs) ++ splitSlash ys
      rw [ih, consHead_append c _ _ (splitSlash_ne_nil cs)]

theorem splitSlash_no_slash : ∀ cs : List Char, '/' ∉ cs → splitSlash cs = [cs] := by
  intro cs
  induction cs with
  | nil => intro _; rfl
  | cons c cs ih =>
    intro h
    have hc : ¬ (c = '/') := by
      intro hh
      subst hh
      exact h (List.mem_cons_self _ _)
    have hcs : '/' ∉ cs := fun hh => h (List.mem_cons_of_mem c hh)
    simp [splitSlash, hc, ih hcs, consHead]

theorem mk_data_map : ∀ l : List String, l.map (fun s => String.mk s.data) = l := by
  intro l
  induction l with
  | nil => rfl
  | cons s rest ih =>
    show String.mk s.data :: List.map _ rest = s :: rest
    rw [ih]

theorem segsOf_no_slash (s : String) (h : '/' ∉ s.data) : segsOf s = [s] := by
  unfold segsOf
  rw [splitSlash_no_slash s.data h]
  rfl

theorem segsOf_append_piece (a b : String) :
    segsOf ((a ++ "/") ++ b) = segsOf a ++ segsOf b := by
  unfold segsOf
  have hdata : ((a ++ "/") ++ b).data = a.data ++ '/' :: b.data := by
    simp [String.data_append, show "/".data = ['/'] from rfl, List.append_assoc]
  rw [hdata, splitSlash_append, List.map_append]

theorem joinSep_slash_data : ∀ l : List String, l ≠ [] → (∀ s ∈ l, '/' ∉ s.data) →
    splitSlash (joinSep "/" l).data = l.map String.data := by
  intro l
  induction l with
  | nil => intro h _; exact absurd rfl h
  | cons x xs ih =>
    intro _ hns
    cases xs with
    | nil =>
      show splitSlash (joinSep "/" [x]).data = [x.data]
      exact splitSlash_no_slash x.data (hns x (by simp))
    | cons y rest =>
      show splitSlash ((x ++ "/") ++ joinSep "/" (y :: rest)).data = _
      have hdata : ((x ++ "/") ++ joinSep "/" (y :: rest)).data =
          x.data ++ '/' :: (joinSep "/" (y :: rest)).data := by
        simp [String.data_append, show "/".data = ['/'] from rfl, List.append_assoc]
      rw [hdata, splitSlash_append, splitSlash_no_slash x.data (hns x (by simp)),
        ih (by simp) (fun s hs => hns s (by simp [hs]))]
      rfl

theorem segsOf_abs (l : List String) (hne : l ≠ []) (hns : ∀ s ∈ l, '/' ∉ s.data) :
    segsOf ("/" ++ joinSep "/" l) = "" :: l := by
  unfold segsOf
  have hd : ("/" ++ joinSep "/" l).data = '/' :: (joinSep "/" l).data := by
    simp [String.data_append, show "/".data = ['/'] from rfl]
  rw [hd]
  rw [show splitSlash ('/' :: (joinSep "/" l).data) =
      [] :: splitSlash (joinSep "/" l).data from by simp [splitSlash]]
  rw [joinSep_slash_data l hne hns]
  show String.mk [] :: List.map _ (l.map String.data) = "" :: l
  rw [List.map_map]
  rw [show List.map ((fun g => String.mk g) ∘ String.data) l = l from mk_data_map l]

theorem normRun_append : ∀ (l1 l2 st : List String),
    normRun st (l1 ++ l2) = normRun (normRun st l1) l2 := by
  intro l1
  induction l1 with
  | nil => intro l2 st; rfl
  | cons s rest ih =>
    intro l2 st
    by_cases h1 : s = "" ∨ s = "."
    · simp only [List.cons_append, normRun, if_pos h1]
      exact ih l2 st
    · by_cases h2 : s = ".."
      · simp only [List.cons_append, normRun, if_neg h1, if_pos h2]
        exact ih l2 st.tail
      · simp only [List.cons_append, normRun, if_neg h1, if_neg h2]
        exact ih l2 (s :: st)

theorem normRun_clean : ∀ (l st : List String),
    (∀ s ∈ l, s ≠ "" ∧ s ≠ "." ∧ s ≠ "..") → normRun st l = l.reverse ++ st := by
  intro l
  induction l with
  | nil => intro st _; simp [normRun]
  | cons s rest ih =>
    intro st h
    obtain ⟨h1, h2, h3⟩ := h s (by simp)
    have hcond : ¬ (s = "" ∨ s = ".") := by
      rintro (hh | hh)
      exacts [h1 hh, h2 hh]
    simp only [normRun, if_neg hcond, if_neg h3]
    rw [ih (s :: st) (fun t ht => h t (by simp [ht]))]
    simp

theorem joinSep_append_last (sep x : String) :
    ∀ l : List String, l ≠ [] → joinSep sep (l ++ [x]) = joinSep sep l ++ sep ++ x := by
  intro l
  induction l with
  | nil => intro h; exact absurd rfl h
  | cons a rest ih =>
    intro _
    cases rest with
    | nil => rfl
    | cons b rest2 =>
      show a ++ sep ++ joinSep sep ((b :: rest2) ++ [x]) =
        (a ++ sep ++ joinSep sep (b :: rest2)) ++ sep ++ x
      rw [ih (by simp)]
      simp [String.append_assoc]

theorem absNormalize_extend (l : List String) (hne : l ≠ [])
    (hclean : ∀ s ∈ l, cleanSeg s) (safe : String) (hsafe : cleanSeg safe) :
    absNormalize ((("/" ++ joinSep "/" l) ++ "/") ++ safe) =
      (("/" ++ joinSep "/" l) ++ "/") ++ safe := by
  unfold absNormalize
  rw [segsOf_append_piece ("/" ++ joinSep "/" l) safe]
  rw [segsOf_abs l hne (fun s hs => (hclean s hs).2.2.2)]
  rw [segsOf_no_slash safe hsafe.2.2.2]
  rw [show ("" :: l) ++ [safe] = "" :: (l ++ [safe]) from rfl]
  rw [show normRun [] ("" :: (l ++ [safe])) = normRun [] (l ++ [safe]) from by
    simp [normRun]]
  have hcl : ∀ s ∈ l ++ [safe], s ≠ "" ∧ s ≠ "." ∧ s ≠ ".." := by
    intro t ht
    rcases List.mem_append.mp ht with h | h
    · exact ⟨(hclean t h).1, (hclean t h).2.1, (hclean t h).2.2.1⟩
    · have hts : t = safe := by simpa using h
      subst hts
      exact ⟨hsafe.1, hsafe.2.1, hsafe.2.2.1⟩
  rw [normRun_clean (l ++ [safe]) [] hcl]
  simp only [List.append_nil, List.reverse_reverse]
  rw [joinSep_append_last "/" safe l hne]
  simp [String.append_assoc]

theorem joinPosix_root (l : List String) (hne : l ≠ [])
    (hclean : ∀ s ∈ l, cleanSeg s) :
    joinPosix ("/" ++ joinSep "/" l) "/" = "/" ++ joinSep "/" l := by
  unfold joinPosix absNormalize
  rw [segsOf_append_piece ("/" ++ joinSep "/" l) "/"]
  rw [segsOf_abs l hne (fun s hs => (hclean s hs).2.2.2)]
  rw [show segsOf "/" = ["", ""] from rfl]
  rw [normRun_append ("" :: l) ["", ""] []]
  rw [show normRun [] ("" :: l) = normRun [] l from by simp [normRun]]
  rw [normRun_clean l []
    (fun s hs => ⟨(hclean s hs).1, (hclean s hs).2.1, (hclean s hs).2.2.1⟩)]
  rw [show ∀ st : List String, normRun st ["", ""] = st from fun st => by simp [normRun]]
  simp

theorem strStartsWith_eq_false_of_longer (p m : String)
    (h : m.data.length < p.data.length) : strStartsWith p m = false := by
  unfold strStartsWith
  cases hb : p.data.isPrefixOf m.data with
  | false => rfl
  | true =>
    exfalso
    have hpre : p.data <+: m.data := List.isPrefixOf_iff_prefix.mp hb
    have := hpre.length_le
    omega

theorem strStartsWith_slash_false (s : String) (hne : s ≠ "") (hns : '/' ∉ s.data) :
    strStartsWith "/" s = false := by
  unfold strStartsWith
  cases hd : s.data with
  | nil => exact absurd (String.ext hd) hne
  | cons c cs =>
    have hcne : ¬ ('/' = c) := by
      intro hh
      apply hns
      rw [hd, ← hh]
      exact List.mem_cons_self _ _
    show List.isPrefixOf ['/'] (c :: cs) = false
    simp [List.isPrefixOf, hcne]

theorem joinSep_data_ne_nil (l : List String) (hne : l ≠ []) (hh : ∀ s ∈ l, s ≠ "") :
    (joinSep "/" l).data ≠ [] := by
  cases l with
  | nil => exact absurd rfl hne
  | cons a rest =>
    cases rest with
    | nil =>
      intro hd
      exact hh a (by simp) (String.ext hd)
    | cons b r2 =>
      intro hd
      have hdata : ((a ++ "/") ++ joinSep "/" (b :: r2)).data =
          a.data ++ '/' :: (joinSep "/" (b :: r2)).data := by
        simp [String.data_append, show "/".data = ['/'] from rfl, List.append_assoc]
      rw [show joinSep "/" (a :: b :: r2) = (a ++ "/") ++ joinSep "/" (b :: r2) from by
        simp [joinSep, String.append_assoc]] at hd
      rw [hdata] at hd
      simp at hd

theorem dir_data_cons (l : List String) :
    ("/" ++ joinSep "/" l).data = '/' :: (joinSep "/" l).data := by
  simp [String.data_append, show "/".data = ['/'] from rfl]

theorem dir_ne_root (l : List String) (hne : l ≠ []) (hh : ∀ s ∈ l, s ≠ "") :
    ("/" ++ joinSep "/" l) ≠ "/" := by
  intro h
  have hd := congrArg String.data h
  rw [dir_data_cons] at hd
  have : (joinSep "/" l).data = [] := by
    have h2 : '/' :: (joinSep "/" l).data = ['/'] := hd
    simpa using h2
  exact joinSep_data_ne_nil l hne hh this

theorem basenamePosix_cases (r : String) :
    basenamePosix r = "/" ∨ '/' ∉ (basenamePosix r).data := by
  unfold basenamePosix
  by_cases h1 : r.data.isEmpty = true
  · right
    rw [if_pos h1]
    simp
  · by_cases h2 : (dropTrailingSlashes r.data).isEmpty = true
    · left
      rw [if_neg h1, if_pos h2]
    · right
      rw [if_neg h1, if_neg h2]
      intro hmem
      unfold lastSeg at hmem
      have hmem2 : '/' ∈ (dropTrailingSlashes r.data).reverse.takeWhile
          (fun c => decide (c ≠ '/')) := List.mem_reverse.mp hmem
      have hp := List.mem_takeWhile_imp hmem2
      simp at hp

theorem basenamePosix_strip (pre name : String) (hne : name ≠ "")
    (hns : '/' ∉ name.data) : basenamePosix ((pre ++ "/") ++ name) = name := by
  have hdata : ((pre ++ "/") ++ name).data = pre.data ++ '/' :: name.data := by
    simp [String.data_append, show "/".data = ['/'] from rfl, List.append_assoc]
  have hnd : name.data ≠ [] := fun h => hne (String.ext h)
  have hrev : (pre.data ++ '/' :: name.data).reverse =
      name.data.reverse ++ '/' :: pre.data.reverse := by
    simp
  obtain ⟨c, rest, hcr⟩ : ∃ c rest, name.data.reverse = c :: rest := by
    cases hx : name.data.reverse with
    | nil => exact absurd (List.reverse_eq_nil_iff.mp hx) hnd
    | cons c rest => exact ⟨c, rest, rfl⟩
  have hcne : ¬ (c = '/') := by
    intro hh
    subst hh
    have hcm : '/' ∈ name.data.reverse := by
      rw [hcr]
      exact List.mem_cons_self _ _
    exact hns (List.mem_reverse.mp hcm)
  have htrim : dropTrailingSlashes (pre.data ++ '/' :: name.data) =
      pre.data ++ '/' :: name.data := by
    unfold dropTrailingSlashes
    rw [hrev, hcr]
    simp only [List.cons_append]
    have hd2 : decide (c = '/') = false := by simpa using hcne
    rw [List.dropWhile_cons]
    simp only [hd2, Bool.false_eq_true, if_false]
    rw [← List.cons_append, ← hcr, ← hrev, List.reverse_reverse]
  have hempty : (pre.data ++ '/' :: name.data).isEmpty = false := by
    cases hp : pre.data <;> simp
  show (if ((pre ++ "/") ++ name).data.isEmpty = true then ""
    else if (dropTrailingSlashes ((pre ++ "/") ++ name).data).isEmpty = true then "/"
    else String.mk (lastSeg (dropTrailingSlashes ((pre ++ "/") ++ name).data))) = name
  rw [hdata, htrim, if_neg (by simp [hempty]), if_neg (by simp [hempty])]
  unfold lastSeg
  rw [hrev]
  have hall : ∀ a ∈ name.data.reverse, (fun c => decide (c ≠ '/')) a = true := by
    intro a ha
    have : a ∈ name.data := List.mem_reverse.mp ha
    simp
    intro hh
    subst hh
    exact hns this
  rw [List.takeWhile_append_of_pos hall,
    List.takeWhile_cons_of_neg (by simp), List.append_nil, List.reverse_reverse]

/-- C10: the download handler writes only to the join of the resolved save
directory (an absolute normalized path, given by its clean segments) with
the basename of the supplied-or-original filename: directory components of
the supplied filename are discarded by basename, an empty, dot or dot-dot
basename is rejected before anything is written, the final path must pass
the sensitive-path download check, and every successfully returned write
path lies directly under the resolved save directory. -/
theorem C10_download_containment (cwd : String) (segs : List String)
    (hne : segs ≠ []) (hclean : ∀ s ∈ segs, cleanSeg s)
    (filename : Option String) (orig : String) :
    (∀ p, downloadWritePath cwd ("/" ++ joinSep "/" segs) filename orig = Except.ok p →
      p = (("/" ++ joinSep "/" segs) ++ "/") ++ basenamePosix (requestedName filename orig) ∧
      strStartsWith (("/" ++ joinSep "/" segs) ++ "/") p = true ∧
      validateDownloadPath cwd p = Except.ok ()) ∧
    (basenamePosix (requestedName filename orig) = "" ∨
     basenamePosix (requestedName filename orig) = "." ∨
     basenamePosix (requestedName filename orig) = ".." →
      downloadWritePath cwd ("/" ++ joinSep "/" segs) filename orig =
        Except.error "Invalid attachment filename") ∧
    (∀ pre name : String, name ≠ "" → '/' ∉ name.data →
      basenamePosix ((pre ++ "/") ++ name) = name) := by
  have hseg_ne : ∀ s ∈ segs, s ≠ "" := fun s hs => (hclean s hs).1
  have herr : (basenamePosix (requestedName filename orig) = "" ∨
      basenamePosix (requestedName filename orig) = "." ∨
      basenamePosix (requestedName filename orig) = ".." →
      downloadWritePath cwd ("/" ++ joinSep "/" segs) filename orig =
        Except.error "Invalid attachment filename") := by
    intro hbad
    show (if basenamePosix (requestedName filename orig) = "" ∨
        basenamePosix (requestedName filename orig) = "." ∨
        basenamePosix (requestedName filename orig) = ".." then
        Except.error "Invalid attachment filename"
      else _) = _
    rw [if_pos hbad]
  refine ⟨?_, herr, fun pre name h1 h2 => basenamePosix_strip pre name h1 h2⟩
  intro p hok
  by_cases hbad : (basenamePosix (requestedName filename orig) = "" ∨
      basenamePosix (requestedName filename orig) = "." ∨
      basenamePosix (requestedName filename orig) = "..")
  · rw [herr hbad] at hok
    cases hok
  · push_neg at hbad
    obtain ⟨hs1, hs2, hs3⟩ := hbad
    simp only [downloadWritePath] at hok
    rw [if_neg (by
      push_neg
      exact ⟨hs1, hs2, hs3⟩)] at hok
    rcases basenamePosix_cases (requestedName filename orig) with hslash | hnos
    · exfalso
      rw [hslash] at hok
      have hfullRoot : resolvePosix ("/" ++ joinSep "/" segs) "/" = "/" := rfl
      have hjoinRoot := joinPosix_root segs hne hclean
      rw [hfullRoot, hjoinRoot] at hok
      have hlen : 2 ≤ ("/" ++ joinSep "/" segs).data.length := by
        rw [dir_data_cons]
        have := joinSep_data_ne_nil segs hne hseg_ne
        cases hj : (joinSep "/" segs).data with
        | nil => exact absurd hj this
        | cons a as => simp
      have hcond1 : ¬ strStartsWith (("/" ++ joinSep "/" segs) ++ "/") "/" = true := by
        rw [strStartsWith_eq_false_of_longer]
        · simp
        · rw [String.data_append]
          simp only [List.length_append]
          have h1 : ("/" : String).data.length = 1 := rfl
          omega
      have hcond2 : ¬ ("/" : String) = ("/" ++ joinSep "/" segs) := by
        intro hh
        exact dir_ne_root segs hne hseg_ne hh.symm
      rw [if_pos ⟨hcond1, hcond2⟩] at hok
      cases hok
    · have hsafeclean : cleanSeg (basenamePosix (requestedName filename orig)) :=
        ⟨hs1, hs2, hs3, hnos⟩
      have hfull : resolvePosix ("/" ++ joinSep "/" segs)
          (basenamePosix (requestedName filename orig)) =
          (("/" ++ joinSep "/" segs) ++ "/") ++ basenamePosix (requestedName filename orig) := by
        unfold resolvePosix
        rw [if_neg (by
          rw [strStartsWith_slash_false _ hs1 hnos]
          simp)]
        exact absNormalize_extend segs hne hclean _ hsafeclean
      have hguardfalse : ¬ (¬ strStartsWith (("/" ++ joinSep "/" segs) ++ "/")
          (resolvePosix ("/" ++ joinSep "/" segs)
            (basenamePosix (requestedName filename orig))) = true ∧
          ¬ resolvePosix ("/" ++ joinSep "/" segs)
            (basenamePosix (requestedName filename orig)) =
            joinPosix ("/" ++ joinSep "/" segs)
              (basenamePosix (requestedName filename orig))) := by
        rintro ⟨hg1, _⟩
        apply hg1
        rw [hfull]
        exact strStartsWith_append _ _
      rw [if_neg hguardfalse] at hok
      cases hval : validateDownloadPath cwd (resolvePosix ("/" ++ joinSep "/" segs)
          (basenamePosix (requestedName filename orig))) with
      | error e =>
        rw [hval] at hok
        simp only [] at hok
        cases hok
      | ok u =>
        rw [hval] at hok
        simp only [] at hok
        cases hok
        refine ⟨hfull, ?_, ?_⟩
        · rw [hfull]
          exact strStartsWith_append _ _
        · cases u
          rw [hfull] at hval
          rw [hfull]
          exact hval

theorem C10_download_containment_witness :
    "/home/user/save/c.txt" =
      (("/" ++ joinSep "/" ["home", "user", "save"]) ++ "/") ++
        basenamePosix (requestedName (some "a/b/c.txt") "orig.txt") ∧
    strStartsWith (("/" ++ joinSep "/" ["home", "user", "save"]) ++ "/")
      "/home/user/save/c.txt" = true ∧
    validateDownloadPath "/home/user/project" "/home/user/save/c.txt" = Except.ok () :=
  (C10_download_containment "/home/user/project" ["home", "user", "save"]
    (by decide) (by decide) (some "a/b/c.txt") "orig.txt").1
    "/home/user/save/c.txt" (by decide)

end GmailMcp
